import Mathlib

/-!
Verification of the response-cache component (`src/utils/responseCache`-style
module, found in the repository source): a bounded in-memory key-value store
with per-entry TTL, lazy expiry on read, LRU eviction on insert, a
`withCache` memoization wrapper and an `invalidateCache` helper.

The JavaScript code is shallowly embedded: the `Map<string, CacheEntry>` is a
list of key/entry pairs in insertion order (JS `Map` iteration order), times
are integers passed explicitly in place of `Date.now()`, and the SHA-256 hex
digest from node's `crypto` (an external library, not part of this
repository) is an opaque parameter `hash : String → String`.
-/

namespace CacheSpec

/-- A JSON-like value, standing in for the `unknown` payloads the cache
stores and the parameter values it hashes. -/
inductive JValue where
  | null : JValue
  | bool : Bool → JValue
  | num : Int → JValue
  | str : String → JValue
deriving DecidableEq, Repr

/-- JavaScript truthiness of a `JValue` (`null`, `false`, `0` and `""` are
falsy), used by the `if (cached)` test in `withCache` and by `if (lruKey)`
for strings. -/
def JValue.truthy : JValue → Bool
  | .null => false
  | .bool b => b
  | .num n => n != 0
  | .str s => s != ""

/-- `JSON.stringify` of a primitive value. -/
def JValue.stringify : JValue → String
  | .null => "null"
  | .bool true => "true"
  | .bool false => "false"
  | .num n => toString n
  | .str s => "\"" ++ s ++ "\""

/-- The `CacheEntry<T>` record from the source:
`{ data, timestamp, ttl, accessCount, lastAccessed }`. -/
structure CacheEntry where
  data : JValue
  timestamp : Int
  ttl : Int
  accessCount : Int
  lastAccessed : Int
deriving DecidableEq, Repr

/-- Lookup in a JS `Map` modelled as an insertion-ordered association list. -/
def mapGet {β : Type} (k : String) : List (String × β) → Option β
  | [] => none
  | (k', v) :: rest => if k' = k then some v else mapGet k rest

/-- `Map.set`: overwrite in place when the key is present (keeping its
position in iteration order), append at the end when it is new. -/
def mapSet {β : Type} (k : String) (v : β) : List (String × β) → List (String × β)
  | [] => [(k, v)]
  | (k', v') :: rest => if k' = k then (k, v) :: rest else (k', v') :: mapSet k v rest

/-- `Map.delete`: remove the entry for a key. -/
def mapDelete {β : Type} (k : String) : List (String × β) → List (String × β)
  | [] => []
  | (k', v') :: rest => if k' = k then rest else (k', v') :: mapDelete k rest

/-- The `CacheOptions` bag; `none` models an absent (`undefined`) field, for
which the constructor's destructuring defaults apply. -/
structure CacheOptions where
  ttl : Option Int := none
  maxSize : Option Int := none
  autoCleanup : Option Bool := none
  cleanupInterval : Option Int := none
deriving DecidableEq, Repr

/-- The `ResponseCache<T>` state: the entry map plus the resolved options.
The background cleanup timer handle is not part of the functional state. -/
structure ResponseCache where
  entries : List (String × CacheEntry)
  ttl : Int
  maxSize : Int
  autoCleanup : Bool
  cleanupInterval : Int
deriving DecidableEq, Repr

/-- The `ResponseCache` constructor: resolve each option with its
destructuring default (`ttl = 5 * 60 * 1000`, `maxSize = 100`,
`autoCleanup = true`, `cleanupInterval = 60 * 1000`); the body performs no
validation of the values. -/
def mkResponseCache (options : CacheOptions) : ResponseCache :=
  { entries := []
    ttl := options.ttl.getD 300000
    maxSize := options.maxSize.getD 100
    autoCleanup := options.autoCleanup.getD true
    cleanupInterval := options.cleanupInterval.getD 60000 }

/-- The keys of `params`, sorted as by `Object.keys(params).sort()`. -/
def sortedKeys (params : List (String × JValue)) : List String :=
  List.insertionSort (fun a b => a ≤ b) (params.map Prod.fst)

/-- `JSON.stringify(sortedParams)`: the object rebuilt with its keys in
sorted order, serialized in that key order. -/
def serializeParams (params : List (String × JValue)) : String :=
  "\x7b" ++
    String.intercalate ","
      ((sortedKeys params).map
        (fun k => "\"" ++ k ++ "\":" ++ JValue.stringify ((mapGet k params).getD JValue.null)))
    ++ "\x7d"

/-- `generateKey`: `operation` + "_" + the first 16 characters of the hex
digest of `operation + ":" + paramString`; `hash` stands for the SHA-256
hex digest and `substring(0, 16)` is taken over its characters. -/
def generateKey (hash : String → String) (operation : String)
    (params : List (String × JValue)) : String :=
  operation ++ "_" ++ String.mk (List.take 16 (hash (operation ++ ":" ++ serializeParams params)).toList)

/-- `ResponseCache.get`: look the key up; absent → miss; expired
(`now - timestamp > ttl`) → delete the entry and miss; otherwise bump
`accessCount`, refresh `lastAccessed` and return the data. Returns the
value (if any) together with the updated store. -/
def ResponseCache.get (hash : String → String) (now : Int) (operation : String)
    (params : List (String × JValue)) (c : ResponseCache) :
    Option JValue × ResponseCache :=
  let key := generateKey hash operation params
  match mapGet key c.entries with
  | none => (none, c)
  | some entry =>
    if now - entry.timestamp > entry.ttl then
      (none, { c with entries := mapDelete key c.entries })
    else
      let updated := { entry with accessCount := entry.accessCount + 1, lastAccessed := now }
      (some entry.data, { c with entries := mapSet key updated c.entries })

/-- The scan of `evictLeastRecentlyUsed`: fold over the entries keeping the
key with the smallest `lastAccessed` seen so far (`none` models the initial
`lruTime = Infinity`, so the first entry is always adopted; a later entry
replaces the champion only when strictly smaller). -/
def findLRUAux : Option (String × Int) → List (String × CacheEntry) → Option (String × Int)
  | best, [] => best
  | none, (k, e) :: rest => findLRUAux (some (k, e.lastAccessed)) rest
  | some (bk, bt), (k, e) :: rest =>
    if e.lastAccessed < bt then findLRUAux (some (k, e.lastAccessed)) rest
    else findLRUAux (some (bk, bt)) rest

/-- `evictLeastRecentlyUsed`: on a non-empty map, delete the key found by
the scan; the final `if (lruKey)` is JS string truthiness, so an empty-string
key would not be deleted. -/
def ResponseCache.evictLeastRecentlyUsed (c : ResponseCache) : ResponseCache :=
  if c.entries.length = 0 then c
  else
    match findLRUAux none c.entries with
    | some (lruKey, _) =>
      if lruKey != "" then { c with entries := mapDelete lruKey c.entries } else c
    | none => c

/-- JS `customTtl || defaultTtl`: the left operand wins unless it is absent
(`undefined`) or falsy (`0`). -/
def jsOrInt : Option Int → Int → Int
  | some t, d => if t = 0 then d else t
  | none, d => d

/-- `ResponseCache.set`: build the fresh entry
(`timestamp = now`, `ttl = customTtl || defaultTtl`, `accessCount = 1`,
`lastAccessed = now`), evict when `size >= maxSize` (regardless of whether
the key is already present), then write the entry. -/
def ResponseCache.set (hash : String → String) (now : Int) (operation : String)
    (params : List (String × JValue)) (data : JValue) (customTtl : Option Int)
    (c : ResponseCache) : ResponseCache :=
  let key := generateKey hash operation params
  let entry : CacheEntry :=
    { data := data, timestamp := now, ttl := jsOrInt customTtl c.ttl
      accessCount := 1, lastAccessed := now }
  let c1 := if c.maxSize ≤ (c.entries.length : Int) then c.evictLeastRecentlyUsed else c
  { c1 with entries := mapSet key entry c1.entries }

/-- `ResponseCache.delete`: remove the entry for the derived key, returning
whether it existed (the `Map.delete` boolean). -/
def ResponseCache.delete (hash : String → String) (operation : String)
    (params : List (String × JValue)) (c : ResponseCache) : Bool × ResponseCache :=
  let key := generateKey hash operation params
  ((mapGet key c.entries).isSome, { c with entries := mapDelete key c.entries })

/-- `ResponseCache.clear`: drop all entries. -/
def ResponseCache.clear (c : ResponseCache) : ResponseCache :=
  { c with entries := [] }

/-- One `{ key, age, accessCount }` row of `getStats`. -/
structure CacheStatEntry where
  key : String
  age : Int
  accessCount : Int
deriving DecidableEq, Repr

/-- The `getStats` snapshot. -/
structure CacheStats where
  size : Nat
  maxSize : Int
  hitRate : Rat
  entries : List CacheStatEntry
deriving DecidableEq, Repr

/-- `ResponseCache.getStats`: a read-only snapshot; it maps the entries to
rows and computes the access totals without touching the store. -/
def ResponseCache.getStats (now : Int) (c : ResponseCache) : CacheStats :=
  let entries := c.entries.map
    (fun p => { key := p.1, age := now - p.2.timestamp, accessCount := p.2.accessCount : CacheStatEntry })
  let totalAccesses : Int := entries.foldl (fun sum e => sum + e.accessCount) 0
  { size := c.entries.length
    maxSize := c.maxSize
    hitRate := if 0 < totalAccesses then (c.entries.length : Rat) / (totalAccesses : Rat) else 0
    entries := entries }

/-- `cleanup` (the periodic sweep body): drop every expired entry. -/
def ResponseCache.cleanup (now : Int) (c : ResponseCache) : ResponseCache :=
  { c with entries := c.entries.filter (fun p => !(decide (now - p.2.timestamp > p.2.ttl))) }

/-- `withCache`: consult the cache first; `if (cached)` is a JS truthiness
test, so only a present and truthy cached value short-circuits. Otherwise
run the handler: on success store and return the result, on failure
propagate the error. The third component counts handler invocations made by
this call (0 or 1). -/
def withCache (hash : String → String) (now : Int) (operation : String)
    (handler : Unit → Except String JValue) (params : List (String × JValue))
    (customTtl : Option Int) (c : ResponseCache) :
    Except String JValue × ResponseCache × Nat :=
  match c.get hash now operation params with
  | (some v, c1) =>
    if v.truthy then (Except.ok v, c1, 0)
    else
      match handler () with
      | Except.ok result =>
        (Except.ok result, c1.set hash now operation params result customTtl, 1)
      | Except.error e => (Except.error e, c1, 1)
  | (none, c1) =>
    match handler () with
    | Except.ok result =>
      (Except.ok result, c1.set hash now operation params result customTtl, 1)
    | Except.error e => (Except.error e, c1, 1)

/-- `key.split('_')[0]`: the characters before the first underscore. -/
def jsSplitHead (key : String) : String :=
  String.mk (key.toList.takeWhile (fun ch => ch != '_'))

/-- Char-list prefix test (first argument is the candidate prefix). -/
def charsStartWith : List Char → List Char → Bool
  | [], _ => true
  | _ :: _, [] => false
  | p :: ps, s :: ss => p == s && charsStartWith ps ss

/-- Char-list substring test: does the second list contain the first? -/
def charsContain (p : List Char) : List Char → Bool
  | [] => charsStartWith p []
  | s :: ss => charsStartWith p (s :: ss) || charsContain p ss

/-- JS `key.includes(pattern)`. -/
def strIncludes (key pattern : String) : Bool :=
  charsContain pattern.toList key.toList

/-- `invalidateCache`: walk the stats snapshot and count the keys whose
`includes(pattern)` holds and whose segment before the first underscore
equals the pattern; the function never calls `delete`, so the store is
returned unchanged. -/
def invalidateCache (now : Int) (c : ResponseCache) (pattern : String) : Int × ResponseCache :=
  let stats := c.getStats now
  let invalidatedCount := stats.entries.foldl
    (fun acc entry =>
      if strIncludes entry.key pattern then
        if jsSplitHead entry.key = pattern then acc + 1 else acc
      else acc) 0
  (invalidatedCount, c)

/-- An externally issued cache operation, for stating invariants over
operation sequences. -/
inductive CacheOp where
  | doGet (now : Int) (operation : String) (params : List (String × JValue))
  | doSet (now : Int) (operation : String) (params : List (String × JValue))
      (data : JValue) (customTtl : Option Int)
  | doDelete (operation : String) (params : List (String × JValue))
  | doClear

/-- Run one operation against the store, keeping the resulting state. -/
def applyOp (hash : String → String) (c : ResponseCache) : CacheOp → ResponseCache
  | .doGet now operation params => (c.get hash now operation params).2
  | .doSet now operation params data customTtl => c.set hash now operation params data customTtl
  | .doDelete operation params => (ResponseCache.delete hash operation params c).2
  | .doClear => c.clear

/-- All keys of the store are nonempty strings (true of every key the code
ever inserts, since `generateKey` always contains an underscore). -/
def KeysNonempty (c : ResponseCache) : Prop :=
  ∀ p ∈ c.entries, p.1 ≠ ""

/-- The read bookkeeping `get` applies to an entry on a live hit. -/
def touchEntry (now : Int) (e : CacheEntry) : CacheEntry :=
  { e with accessCount := e.accessCount + 1, lastAccessed := now }

instance : DecidableEq (Except String JValue) := fun a b =>
  match a, b with
  | .ok x, .ok y =>
    match decEq x y with
    | isTrue h => isTrue (congrArg Except.ok h)
    | isFalse h => isFalse (fun hc => h (Except.ok.inj hc))
  | .error x, .error y =>
    match decEq x y with
    | isTrue h => isTrue (congrArg Except.error h)
    | isFalse h => isFalse (fun hc => h (Except.error.inj hc))
  | .ok _, .error _ => isFalse (fun hc => Except.noConfusion hc)
  | .error _, .ok _ => isFalse (fun hc => Except.noConfusion hc)

/-! ### Concrete fixtures for witnesses and counterexamples

The digest function is opaque to every store operation — nothing inspects
its output beyond concatenating it into the key — so concrete runs may
instantiate it with any function; `hashX` maps every input to `"h"`, making
the key for operation `"a"` and empty params equal to `"a_h"`. -/

def hashX : String → String := fun _ => "h"

/-- A store holding one entry under `"a_h"` that is expired for any
`now > 10` (stored at time 0 with ttl 10). -/
def cacheExpired : ResponseCache :=
  { entries := [("a_h", ⟨JValue.str "old", 0, 10, 1, 0⟩)],
    ttl := 300000, maxSize := 100, autoCleanup := true, cleanupInterval := 60000 }

/-- A store at capacity (`maxSize = 2`, two live entries): `"a_h"` was read
recently (`lastAccessed 10`), `"b_h"` is the least recently used
(`lastAccessed 5`). -/
def cacheFull2 : ResponseCache :=
  { entries := [("a_h", ⟨JValue.str "x", 0, 300000, 2, 10⟩),
                ("b_h", ⟨JValue.str "y", 0, 300000, 1, 5⟩)],
    ttl := 300000, maxSize := 2, autoCleanup := true, cleanupInterval := 60000 }

/-- A store at capacity (`maxSize = 2`) whose oldest-`lastAccessed` entry
`"a_h"` is expired at `now = 100` (stored at 0, ttl 1) while `"b_h"` is
live (stored at 99, ttl 100) with a later `lastAccessed`. -/
def cacheMixed : ResponseCache :=
  { entries := [("a_h", ⟨JValue.str "x", 0, 1, 1, 0⟩),
                ("b_h", ⟨JValue.str "y", 99, 100, 1, 50⟩)],
    ttl := 300000, maxSize := 2, autoCleanup := true, cleanupInterval := 60000 }

/-- The LRU test scenario at `maxSize = 3`: `"a_h"` (k1) was re-read last
(`lastAccessed 3`), `"b_h"` (k2) is least recently used (`lastAccessed 1`),
`"c_h"` (k3) is in between (`lastAccessed 2`); all live. -/
def cacheP4 : ResponseCache :=
  { entries := [("a_h", ⟨JValue.str "v1", 0, 1000, 2, 3⟩),
                ("b_h", ⟨JValue.str "v2", 1, 1000, 1, 1⟩),
                ("c_h", ⟨JValue.str "v3", 2, 1000, 1, 2⟩)],
    ttl := 1000, maxSize := 3, autoCleanup := true, cleanupInterval := 60000 }

/-- A store holding, under `"a_h"`, a live entry (stored at 0, ttl 1000)
whose cached value is the falsy `false`, so a lookup returns it but the
`if (cached)` check in `withCache` still invokes the producer. -/
def cacheFalsy : ResponseCache :=
  { entries := [("a_h", ⟨JValue.bool false, 0, 1000, 1, 0⟩)],
    ttl := 300000, maxSize := 100, autoCleanup := true, cleanupInterval := 60000 }

/-! ### Lemmas about the association-list map operations -/

theorem mapGet_mapSet_self {β : Type} (k : String) (v : β) (l : List (String × β)) :
    mapGet k (mapSet k v l) = some v := by
  induction l with
  | nil => simp [mapGet, mapSet]
  | cons hd tl ih =>
    obtain ⟨k', v'⟩ := hd
    by_cases h : k' = k
    · simp [mapGet, mapSet, h]
    · simp [mapGet, mapSet, h, ih]

theorem mapGet_mapSet_ne {β : Type} {k k' : String} (v : β) (l : List (String × β))
    (h : k' ≠ k) : mapGet k' (mapSet k v l) = mapGet k' l := by
  induction l with
  | nil => simp [mapGet, mapSet, Ne.symm h]
  | cons hd tl ih =>
    obtain ⟨k0, v0⟩ := hd
    by_cases hk : k0 = k
    · subst hk
      simp [mapSet, mapGet, Ne.symm h]
    · by_cases hk' : k0 = k'
      · simp [mapSet, if_neg hk, mapGet, hk', h]
      · simp [mapSet, if_neg hk, mapGet, hk', h, ih]

theorem mapSet_length_le {β : Type} (k : String) (v : β) (l : List (String × β)) :
    (mapSet k v l).length ≤ l.length + 1 := by
  induction l with
  | nil => simp [mapSet]
  | cons hd tl ih =>
    obtain ⟨k', v'⟩ := hd
    by_cases h : k' = k
    · simp [mapSet, h]
    · simp only [mapSet, if_neg h, List.length_cons]
      omega

theorem mapSet_length_present {β : Type} {k : String} (v : β) {l : List (String × β)}
    (h : (mapGet k l).isSome = true) : (mapSet k v l).length = l.length := by
  induction l with
  | nil => simp [mapGet] at h
  | cons hd tl ih =>
    obtain ⟨k', v'⟩ := hd
    by_cases hk : k' = k
    · simp [mapSet, hk]
    · simp only [mapGet, if_neg hk] at h
      simp [mapSet, if_neg hk, ih h]

theorem mapDelete_length_le {β : Type} (k : String) (l : List (String × β)) :
    (mapDelete k l).length ≤ l.length := by
  induction l with
  | nil => simp [mapDelete]
  | cons hd tl ih =>
    obtain ⟨k', v'⟩ := hd
    by_cases h : k' = k
    · simp [mapDelete, h]
    · simp only [mapDelete, if_neg h, List.length_cons]
      omega

theorem mapDelete_length_present {β : Type} {k : String} {l : List (String × β)}
    (h : (mapGet k l).isSome = true) : (mapDelete k l).length + 1 = l.length := by
  induction l with
  | nil => simp [mapGet] at h
  | cons hd tl ih =>
    obtain ⟨k', v'⟩ := hd
    by_cases hk : k' = k
    · simp [mapDelete, hk]
    · simp only [mapGet, if_neg hk] at h
      simp [mapDelete, if_neg hk, ih h]

theorem mapGet_mem {β : Type} {k : String} {e : β} {l : List (String × β)}
    (h : mapGet k l = some e) : (k, e) ∈ l := by
  induction l with
  | nil => simp [mapGet] at h
  | cons hd tl ih =>
    obtain ⟨k', v'⟩ := hd
    by_cases hk : k' = k
    · subst hk
      have h' : v' = e := by simpa [mapGet] using h
      subst h'
      exact List.mem_cons_self _ _
    · simp only [mapGet, if_neg hk] at h
      exact List.mem_cons_of_mem _ (ih h)

theorem mapGet_isSome_of_mem_keys {β : Type} {k : String} {l : List (String × β)}
    (h : k ∈ l.map Prod.fst) : (mapGet k l).isSome = true := by
  induction l with
  | nil => simp at h
  | cons hd tl ih =>
    obtain ⟨k', v'⟩ := hd
    by_cases hk : k' = k
    · simp [mapGet, hk]
    · simp only [List.map_cons, List.mem_cons] at h
      rcases h with h | h

      · exact absurd h.symm hk
      · simp [mapGet, if_neg hk, ih h]

theorem mem_mapSet {β : Type} {p : String × β} {k : String} {v : β} {l : List (String × β)}
    (h : p ∈ mapSet k v l) : p = (k, v) ∨ p ∈ l := by
  induction l with
  | nil => simpa [mapSet] using h
  | cons hd tl ih =>
    obtain ⟨k', v'⟩ := hd
    by_cases hk : k' = k
    · simp only [mapSet, if_pos hk, List.mem_cons] at h
      rcases h with h | h
      · exact Or.inl h
      · exact Or.inr (List.mem_cons_of_mem _ h)
    · simp only [mapSet, if_neg hk, List.mem_cons] at h
      rcases h with h | h
      · exact Or.inr (by simp [h])
      · rcases ih h with h' | h'
        · exact Or.inl h'
        · exact Or.inr (List.mem_cons_of_mem _ h')

theorem mem_mapDelete {β : Type} {p : String × β} {k : String} {l : List (String × β)}
    (h : p ∈ mapDelete k l) : p ∈ l := by
  induction l with
  | nil => simp [mapDelete] at h
  | cons hd tl ih =>
    obtain ⟨k', v'⟩ := hd
    by_cases hk : k' = k
    · simp only [mapDelete, if_pos hk] at h
      exact List.mem_cons_of_mem _ h
    · simp only [mapDelete, if_neg hk, List.mem_cons] at h
      rcases h with h | h
      · simp [h]
      · exact List.mem_cons_of_mem _ (ih h)

theorem mapGet_mapDelete_self {β : Type} {k : String} {l : List (String × β)}
    (hnd : (l.map Prod.fst).Nodup) : mapGet k (mapDelete k l) = none := by
  induction l with
  | nil => simp [mapDelete, mapGet]
  | cons hd tl ih =>
    obtain ⟨k', v'⟩ := hd
    simp only [List.map_cons, List.nodup_cons] at hnd
    by_cases hk : k' = k
    · subst hk
      simp only [mapDelete, if_pos rfl]
      cases hget : mapGet k' tl with
      | none => exact hget
      | some e => exact absurd (List.mem_map.mpr ⟨(k', e), mapGet_mem hget, rfl⟩) hnd.1
    · simp [mapDelete, if_neg hk, mapGet, hk, ih hnd.2]

/-! ### Lemmas about the LRU scan and eviction -/

theorem findLRUAux_some_isSome (l : List (String × CacheEntry)) :
    ∀ p, (findLRUAux (some p) l).isSome = true := by
  induction l with
  | nil => intro p; rfl
  | cons hd tl ih =>
    intro p
    obtain ⟨k, e⟩ := hd
    obtain ⟨bk, bt⟩ := p
    by_cases hlt : e.lastAccessed < bt
    · simp only [findLRUAux, if_pos hlt]
      exact ih _
    · simp only [findLRUAux, if_neg hlt]
      exact ih _

theorem findLRUAux_spec (l : List (String × CacheEntry)) :
    ∀ acc q, findLRUAux acc l = some q →
      ((acc = some q ∨ ∃ e, (q.1, e) ∈ l ∧ e.lastAccessed = q.2) ∧
        (∀ p ∈ l, q.2 ≤ p.2.lastAccessed) ∧
        (∀ r, acc = some r → q.2 ≤ r.2)) := by
  induction l with
  | nil =>
    intro acc q h
    cases acc with
    | none => simp [findLRUAux] at h
    | some p =>
      have hpq : p = q := by simpa [findLRUAux] using h
      subst hpq
      refine ⟨Or.inl rfl, by simp, ?_⟩
      intro r hr
      cases hr
      exact le_refl _
  | cons hd tl ih =>
    intro acc q h
    obtain ⟨k, e⟩ := hd
    cases acc with
    | none =>
      have h' : findLRUAux (some (k, e.lastAccessed)) tl = some q := h
      obtain ⟨hsrc, hmin, hacc⟩ := ih _ _ h'
      have hqle : q.2 ≤ e.lastAccessed := hacc _ rfl
      refine ⟨?_, ?_, ?_⟩
      · rcases hsrc with heq | ⟨e', hm, hla⟩
        · cases heq
          exact Or.inr ⟨e, List.mem_cons_self _ _, rfl⟩
        · exact Or.inr ⟨e', List.mem_cons_of_mem _ hm, hla⟩
      · intro p hp
        rcases List.mem_cons.mp hp with hp | hp
        · rw [hp]
          exact hqle
        · exact hmin p hp
      · intro r hr
        cases hr
    | some b =>
      obtain ⟨bk, bt⟩ := b
      by_cases hlt : e.lastAccessed < bt
      · have h' : findLRUAux (some (k, e.lastAccessed)) tl = some q := by
          simpa [findLRUAux, if_pos hlt] using h
        obtain ⟨hsrc, hmin, hacc⟩ := ih _ _ h'
        have hqle : q.2 ≤ e.lastAccessed := hacc _ rfl
        refine ⟨?_, ?_, ?_⟩
        · rcases hsrc with heq | ⟨e', hm, hla⟩
          · cases heq
            exact Or.inr ⟨e, List.mem_cons_self _ _, rfl⟩
          · exact Or.inr ⟨e', List.mem_cons_of_mem _ hm, hla⟩
        · intro p hp
          rcases List.mem_cons.mp hp with hp | hp
          · rw [hp]
            exact hqle
          · exact hmin p hp
        · intro r hr
          cases hr
          exact le_of_lt (lt_of_le_of_lt hqle hlt)
      · have h' : findLRUAux (some (bk, bt)) tl = some q := by
          simpa [findLRUAux, if_neg hlt] using h
        obtain ⟨hsrc, hmin, hacc⟩ := ih _ _ h'
        have hqle : q.2 ≤ bt := hacc _ rfl
        refine ⟨?_, ?_, ?_⟩
        · rcases hsrc with heq | ⟨e', hm, hla⟩
          · exact Or.inl heq
          · exact Or.inr ⟨e', List.mem_cons_of_mem _ hm, hla⟩
        · intro p hp
          rcases List.mem_cons.mp hp with hp | hp
          · rw [hp]
            exact le_trans hqle (le_of_not_lt hlt)
          · exact hmin p hp
        · intro r hr
          cases hr
          exact hqle

/-- On a non-empty store whose keys are all nonempty, eviction deletes
exactly the key of some entry whose `lastAccessed` is minimal among all
entries (live or not). -/
theorem evict_characterization {c : ResponseCache} (hne : c.entries ≠ [])
    (hkeys : KeysNonempty c) :
    ∃ k0 e0, (k0, e0) ∈ c.entries ∧
      (∀ p ∈ c.entries, e0.lastAccessed ≤ p.2.lastAccessed) ∧
      c.evictLeastRecentlyUsed = { c with entries := mapDelete k0 c.entries } := by
  obtain ⟨hd, tl, hcons⟩ := List.exists_cons_of_ne_nil hne
  have hlen : c.entries.length ≠ 0 := by simp [hcons]
  have hsome : (findLRUAux none c.entries).isSome = true := by
    rw [hcons]
    obtain ⟨k, e⟩ := hd
    exact findLRUAux_some_isSome tl (k, e.lastAccessed)
  obtain ⟨q, hq⟩ := Option.isSome_iff_exists.mp hsome
  obtain ⟨hsrc, hmin, _⟩ := findLRUAux_spec c.entries none q hq
  rcases hsrc with heq | ⟨e0, hm, hla⟩
  · cases heq
  · refine ⟨q.1, e0, hm, ?_, ?_⟩
    · intro p hp
      rw [hla]
      exact hmin p hp
    · have hne' : q.1 ≠ "" := hkeys _ hm
      obtain ⟨qk, qt⟩ := q
      simp only [ResponseCache.evictLeastRecentlyUsed, if_neg hlen, hq]
      simp [hne']

theorem evict_ttl (c : ResponseCache) : c.evictLeastRecentlyUsed.ttl = c.ttl := by
  simp only [ResponseCache.evictLeastRecentlyUsed]
  split
  · rfl
  · split
    · split <;> rfl
    · rfl

theorem evict_maxSize (c : ResponseCache) : c.evictLeastRecentlyUsed.maxSize = c.maxSize := by
  simp only [ResponseCache.evictLeastRecentlyUsed]
  split
  · rfl
  · split
    · split <;> rfl
    · rfl

theorem evict_entries_subset (c : ResponseCache) :
    ∀ p ∈ c.evictLeastRecentlyUsed.entries, p ∈ c.entries := by
  intro p hp
  simp only [ResponseCache.evictLeastRecentlyUsed] at hp
  split at hp
  · exact hp
  · split at hp
    · split at hp
      · exact mem_mapDelete hp
      · exact hp
    · exact hp

/-- On a non-empty store with nonempty keys, eviction removes exactly one
entry. -/
theorem evict_length {c : ResponseCache} (hne : c.entries ≠ []) (hkeys : KeysNonempty c) :
    c.evictLeastRecentlyUsed.entries.length + 1 = c.entries.length := by
  obtain ⟨k0, e0, hm, _, heq⟩ := evict_characterization hne hkeys
  rw [heq]
  exact mapDelete_length_present
    (mapGet_isSome_of_mem_keys (List.mem_map.mpr ⟨(k0, e0), hm, rfl⟩))

/-! ### Lemmas for key-derivation order independence -/

theorem mapGet_perm {β : Type} (k : String) :
    ∀ {l1 l2 : List (String × β)}, l1.Perm l2 → (l1.map Prod.fst).Nodup →
      mapGet k l1 = mapGet k l2 := by
  intro l1 l2 h
  induction h with
  | nil => intro _; rfl
  | cons x h ih =>
    intro hnd
    obtain ⟨kx, vx⟩ := x
    simp only [List.map_cons, List.nodup_cons] at hnd
    by_cases hk : kx = k
    · simp [mapGet, hk]
    · simp [mapGet, hk, ih hnd.2]
  | swap x y l =>
    intro hnd
    obtain ⟨kx, vx⟩ := x
    obtain ⟨ky, vy⟩ := y
    simp only [List.map_cons, List.nodup_cons, List.mem_cons] at hnd
    by_cases h1 : ky = k <;> by_cases h2 : kx = k
    · exact absurd (h1.trans h2.symm) (fun hc => hnd.1 (Or.inl hc))
    · simp [mapGet, h1, h2]
    · simp [mapGet, h1, h2]
    · simp [mapGet, h1, h2]
  | trans h1 h2 ih1 ih2 =>
    intro hnd
    have hnd2 := ((h1.map Prod.fst).nodup_iff).mp hnd
    rw [ih1 hnd, ih2 hnd2]

theorem sortedKeys_perm {l1 l2 : List (String × JValue)} (h : l1.Perm l2) :
    sortedKeys l1 = sortedKeys l2 := by
  unfold sortedKeys
  exact List.eq_of_perm_of_sorted
    ((List.perm_insertionSort _ _).trans
      ((h.map Prod.fst).trans (List.perm_insertionSort _ _).symm))
    (List.sorted_insertionSort _ _)
    (List.sorted_insertionSort _ _)

theorem serializeParams_perm {l1 l2 : List (String × JValue)} (h : l1.Perm l2)
    (hnd : (l1.map Prod.fst).Nodup) : serializeParams l1 = serializeParams l2 := by
  unfold serializeParams
  rw [sortedKeys_perm h]
  have hget : ∀ k, mapGet k l1 = mapGet k l2 := fun k => mapGet_perm k h hnd
  simp only [hget]

/-! ### Lemmas for pattern matching in invalidateCache -/

theorem charsStartWith_takeWhile (f : Char → Bool) (l : List Char) :
    charsStartWith (l.takeWhile f) l = true := by
  induction l with
  | nil => rfl
  | cons c cs ih =>
    by_cases h : f c
    · simp [List.takeWhile_cons, h, charsStartWith, ih]
    · simp [List.takeWhile_cons, h, charsStartWith]

theorem charsContain_of_startsWith {p l : List Char} (h : charsStartWith p l = true) :
    charsContain p l = true := by
  cases l with
  | nil => simpa [charsContain] using h
  | cons c cs => simp [charsContain, h]

theorem strIncludes_of_jsSplitHead {key pattern : String} (h : jsSplitHead key = pattern) :
    strIncludes key pattern = true := by
  subst h
  exact charsContain_of_startsWith
    (charsStartWith_takeWhile (fun ch => ch != '_') key.toList)

theorem invalidateCount_fold (pattern : String) (l : List CacheStatEntry) :
    ∀ acc : Int,
      l.foldl (fun acc entry =>
        if strIncludes entry.key pattern then
          if jsSplitHead entry.key = pattern then acc + 1 else acc
        else acc) acc
      = acc + l.countP (fun e => decide (jsSplitHead e.key = pattern)) := by
  induction l with
  | nil => intro acc; simp
  | cons hd tl ih =>
    intro acc
    by_cases h : jsSplitHead hd.key = pattern
    · rw [List.foldl_cons]
      simp only [strIncludes_of_jsSplitHead h, if_pos h, if_true]
      rw [ih, List.countP_cons]
      have hdec : (decide (jsSplitHead hd.key = pattern)) = true := decide_eq_true h
      rw [hdec]
      simp only [if_true]
      push_cast
      ring
    · have hstep : (if strIncludes hd.key pattern then
          if jsSplitHead hd.key = pattern then acc + 1 else acc else acc) = acc := by
        split
        · simp [h]
        · rfl
      rw [List.foldl_cons, hstep, ih, List.countP_cons]
      simp [h]

/-! ### Shape and preservation lemmas for the store operations -/

theorem generateKey_ne_empty (hash : String → String) (operation : String)
    (params : List (String × JValue)) : generateKey hash operation params ≠ "" := by
  unfold generateKey
  intro h
  have hd := congrArg String.data h
  simp [String.data_append] at hd

theorem set_entries_shape (hash : String → String) (now : Int) (operation : String)
    (params : List (String × JValue)) (data : JValue) (customTtl : Option Int)
    (c : ResponseCache) :
    (c.set hash now operation params data customTtl).entries =
      mapSet (generateKey hash operation params)
        { data := data, timestamp := now, ttl := jsOrInt customTtl c.ttl,
          accessCount := 1, lastAccessed := now }
        (if c.maxSize ≤ (c.entries.length : Int) then c.evictLeastRecentlyUsed.entries
          else c.entries) := by
  unfold ResponseCache.set
  by_cases hcond : c.maxSize ≤ (c.entries.length : Int)
  · simp [hcond]
  · simp [hcond]

theorem set_maxSize (hash : String → String) (now : Int) (operation : String)
    (params : List (String × JValue)) (data : JValue) (customTtl : Option Int)
    (c : ResponseCache) :
    (c.set hash now operation params data customTtl).maxSize = c.maxSize := by
  unfold ResponseCache.set
  by_cases hcond : c.maxSize ≤ (c.entries.length : Int)
  · simp [hcond, evict_maxSize]
  · simp [hcond]

theorem set_ttl (hash : String → String) (now : Int) (operation : String)
    (params : List (String × JValue)) (data : JValue) (customTtl : Option Int)
    (c : ResponseCache) :
    (c.set hash now operation params data customTtl).ttl = c.ttl := by
  unfold ResponseCache.set
  by_cases hcond : c.maxSize ≤ (c.entries.length : Int)
  · simp [hcond, evict_ttl]
  · simp [hcond]

theorem get_maxSize (hash : String → String) (now : Int) (operation : String)
    (params : List (String × JValue)) (c : ResponseCache) :
    (c.get hash now operation params).2.maxSize = c.maxSize := by
  simp only [ResponseCache.get]
  cases mapGet (generateKey hash operation params) c.entries with
  | none => rfl
  | some e =>
    by_cases hexp : now - e.timestamp > e.ttl
    · simp [hexp]
    · simp [hexp]

theorem applyOp_maxSize (hash : String → String) (c : ResponseCache) (o : CacheOp) :
    (applyOp hash c o).maxSize = c.maxSize := by
  cases o with
  | doGet now operation params => exact get_maxSize hash now operation params c
  | doSet now operation params data customTtl => exact set_maxSize hash now operation params data customTtl c
  | doDelete operation params => rfl
  | doClear => rfl

/-- One step of the size-cap invariant: any operation keeps all keys
nonempty and keeps the entry count at or below `maxSize`. -/
theorem applyOp_invariant (hash : String → String) (o : CacheOp) {c : ResponseCache}
    (hmax : 1 ≤ c.maxSize) (hkeys : KeysNonempty c)
    (hlen : (c.entries.length : Int) ≤ c.maxSize) :
    KeysNonempty (applyOp hash c o) ∧
      ((applyOp hash c o).entries.length : Int) ≤ c.maxSize := by
  cases o with
  | doGet now operation params =>
    simp only [applyOp, ResponseCache.get]
    cases hG : mapGet (generateKey hash operation params) c.entries with
    | none => exact ⟨hkeys, hlen⟩
    | some e =>
      by_cases hexp : now - e.timestamp > e.ttl
      · simp only [if_pos hexp]
        constructor
        · intro p hp
          exact hkeys p (mem_mapDelete hp)
        · have := mapDelete_length_le (generateKey hash operation params) c.entries
          have hcast : ((mapDelete (generateKey hash operation params) c.entries).length : Int)
              ≤ (c.entries.length : Int) := by exact_mod_cast this
          exact le_trans hcast hlen
      · simp only [if_neg hexp]
        constructor
        · intro p hp
          rcases mem_mapSet hp with hpe | hpm
          · rw [hpe]
            exact generateKey_ne_empty hash operation params
          · exact hkeys p hpm
        · have hpres : (mapGet (generateKey hash operation params) c.entries).isSome = true := by
            rw [hG]; rfl
          have := mapSet_length_present
            ({ e with accessCount := e.accessCount + 1, lastAccessed := now }) hpres
          rw [this]
          exact hlen
  | doSet now operation params data customTtl =>
    simp only [applyOp]
    constructor
    · intro p hp
      rw [set_entries_shape] at hp
      rcases mem_mapSet hp with hpe | hpm
      · rw [hpe]
        exact generateKey_ne_empty hash operation params
      · split at hpm
        · exact hkeys p (evict_entries_subset c p hpm)
        · exact hkeys p hpm
    · rw [set_entries_shape]
      by_cases hcond : c.maxSize ≤ (c.entries.length : Int)
      · simp only [if_pos hcond]
        have hne : c.entries ≠ [] := by
          intro hnil
          rw [hnil] at hcond
          simp at hcond
          omega
        have hev := evict_length hne hkeys
        have hmap := mapSet_length_le (generateKey hash operation params)
          (⟨data, now, jsOrInt customTtl c.ttl, 1, now⟩ : CacheEntry)
          c.evictLeastRecentlyUsed.entries
        omega
      · simp only [if_neg hcond]
        have hmap := mapSet_length_le (generateKey hash operation params)
          (⟨data, now, jsOrInt customTtl c.ttl, 1, now⟩ : CacheEntry)
          c.entries
        omega
  | doDelete operation params =>
    simp only [applyOp, ResponseCache.delete]
    constructor
    · intro p hp
      exact hkeys p (mem_mapDelete hp)
    · have := mapDelete_length_le (generateKey hash operation params) c.entries
      have hcast : ((mapDelete (generateKey hash operation params) c.entries).length : Int)
          ≤ (c.entries.length : Int) := by exact_mod_cast this
      exact le_trans hcast hlen
  | doClear =>
    simp only [applyOp, ResponseCache.clear]
    constructor
    · intro p hp
      simp at hp
    · simp
      omega

/-! ### withCache evaluation lemmas -/

theorem withCache_hit (hash : String → String) (now : Int) (operation : String)
    (h : Unit → Except String JValue) (params : List (String × JValue))
    (customTtl : Option Int) (c : ResponseCache) (e : CacheEntry)
    (hfound : mapGet (generateKey hash operation params) c.entries = some e)
    (hlive : ¬(now - e.timestamp > e.ttl)) (htruthy : e.data.truthy = true) :
    (withCache hash now operation h params customTtl c).1 = Except.ok e.data ∧
    (withCache hash now operation h params customTtl c).2.1.entries
      = mapSet (generateKey hash operation params) (touchEntry now e) c.entries ∧
    (withCache hash now operation h params customTtl c).2.2 = 0 := by
  have hget : c.get hash now operation params = (some e.data, { c with entries := mapSet (generateKey hash operation params) (touchEntry now e) c.entries }) := by
    simp only [ResponseCache.get, touchEntry, hfound, if_neg hlive]
  refine ⟨?_, ?_, ?_⟩ <;> simp only [withCache, hget, htruthy, if_true]

theorem withCache_miss_run (hash : String → String) (now : Int) (operation : String)
    (h : Unit → Except String JValue) (params : List (String × JValue))
    (customTtl : Option Int) (c : ResponseCache)
    (hmiss : mapGet (generateKey hash operation params) c.entries = none) :
    withCache hash now operation h params customTtl c
      = (match h () with
          | Except.ok result =>
            (Except.ok result, c.set hash now operation params result customTtl, 1)
          | Except.error e => (Except.error e, c, 1)) := by
  have hget : c.get hash now operation params = (none, c) := by
    simp only [ResponseCache.get, hmiss]
  simp only [withCache, hget]

theorem get_fst_none (hash : String → String) (now : Int) (operation : String)
    (params : List (String × JValue)) (c : ResponseCache)
    (hmiss : mapGet (generateKey hash operation params) c.entries = none) :
    (c.get hash now operation params).1 = none := by
  simp only [ResponseCache.get, hmiss]

theorem get_fst_found (hash : String → String) (now : Int) (operation : String)
    (params : List (String × JValue)) (c : ResponseCache) (e : CacheEntry)
    (hfound : mapGet (generateKey hash operation params) c.entries = some e) :
    (c.get hash now operation params).1
      = if now - e.timestamp > e.ttl then none else some e.data := by
  by_cases hexp : now - e.timestamp > e.ttl
  · simp only [ResponseCache.get, hfound, if_pos hexp]
  · simp only [ResponseCache.get, hfound, if_neg hexp]

/-- Whenever the lookup does not yield a truthy cached value — key absent,
entry expired, or cached value falsy — `withCache` invokes its handler
exactly once, whatever the handler returns. -/
theorem withCache_invokes_of_no_truthy_hit (hash : String → String) (now : Int)
    (operation : String) (h : Unit → Except String JValue)
    (params : List (String × JValue)) (customTtl : Option Int) (c : ResponseCache)
    (hht : (match (c.get hash now operation params).1 with
            | some v => v.truthy
            | none => false) = false) :
    (withCache hash now operation h params customTtl c).2.2 = 1 := by
  cases hpair : c.get hash now operation params with
  | mk o c1 =>
    cases o with
    | none =>
      simp only [withCache, hpair]
      cases hh2 : h () <;> simp [hh2]
    | some v =>
      have hfalsy : v.truthy = false := by
        rw [hpair] at hht
        simpa using hht
      have hcond : ¬(v.truthy = true) := by
        rw [hfalsy]
        exact Bool.false_ne_true
      simp only [withCache, hpair, if_neg hcond]
      cases hh2 : h () <;> simp [hh2]

/-! ### Claim C1 -/

/-- Claim C1 (amended): the hit short-circuit only fires for a present AND
truthy cached value. For every truthy value `v`: a first `withCache` call on
a store without the key, whose producer resolves to `v`, invokes the
producer once and returns `v`; a second sequential call with the same
`(operation, params)` within the effective TTL is a cache hit — it returns
`v` without invoking its producer. -/
theorem claim1_withCache_memoizes_truthy (hash : String → String) (now1 now2 : Int)
    (operation : String) (params : List (String × JValue)) (customTtl : Option Int)
    (c : ResponseCache) (v : JValue) (h1 h2 : Unit → Except String JValue)
    (hv : v.truthy = true)
    (hmiss : mapGet (generateKey hash operation params) c.entries = none)
    (hh1 : h1 () = Except.ok v) (hh2 : h2 () = Except.ok v)
    (htime : now2 - now1 ≤ jsOrInt customTtl c.ttl) :
    (withCache hash now1 operation h1 params customTtl c).1 = Except.ok v ∧
    (withCache hash now1 operation h1 params customTtl c).2.2 = 1 ∧
    (withCache hash now2 operation h2 params customTtl
        (withCache hash now1 operation h1 params customTtl c).2.1).1 = Except.ok v ∧
    (withCache hash now2 operation h2 params customTtl
        (withCache hash now1 operation h1 params customTtl c).2.1).2.2 = 0 := by
  have hr1 : withCache hash now1 operation h1 params customTtl c
      = (Except.ok v, c.set hash now1 operation params v customTtl, 1) := by
    rw [withCache_miss_run hash now1 operation h1 params customTtl c hmiss, hh1]
  have hkey : mapGet (generateKey hash operation params)
      (c.set hash now1 operation params v customTtl).entries
      = some ⟨v, now1, jsOrInt customTtl c.ttl, 1, now1⟩ := by
    rw [set_entries_shape]
    exact mapGet_mapSet_self _ _ _
  have hr2 := withCache_hit hash now2 operation h2 params customTtl
    (c.set hash now1 operation params v customTtl)
    ⟨v, now1, jsOrInt customTtl c.ttl, 1, now1⟩ hkey (not_lt.mpr htime) hv
  have hstore1 : (withCache hash now1 operation h1 params customTtl c).2.1
      = c.set hash now1 operation params v customTtl := by rw [hr1]
  refine ⟨by rw [hr1], by rw [hr1], ?_, ?_⟩
  · rw [hstore1]
    exact hr2.1
  · rw [hstore1]
    exact hr2.2.2

/-- Claim C1 counterexample: the producer resolves to the falsy value
`false`; the first call caches it, the store then holds a live entry for the
key, yet the second sequential call invokes the producer again (both calls
count 1, total 2, instead of "exactly once"), because `if (cached)` treats
a falsy cached value as a miss. -/
theorem claim1_counterexample :
    (withCache hashX 0 "a" (fun _ => Except.ok (JValue.bool false)) [] none
        (mkResponseCache {})).1 = Except.ok (JValue.bool false) ∧
    (withCache hashX 0 "a" (fun _ => Except.ok (JValue.bool false)) [] none
        (mkResponseCache {})).2.2 = 1 ∧
    (mapGet "a_h" (withCache hashX 0 "a" (fun _ => Except.ok (JValue.bool false)) [] none
        (mkResponseCache {})).2.1.entries).isSome = true ∧
    (withCache hashX 0 "a" (fun _ => Except.ok (JValue.bool false)) [] none
        (withCache hashX 0 "a" (fun _ => Except.ok (JValue.bool false)) [] none
          (mkResponseCache {})).2.1).2.2 = 1 := by
  decide

/-- Witness for C1: at the concrete truthy value `"v"`, empty store, both
calls at time 0: the producer runs once and both results are `ok "v"`. -/
theorem claim1_witness :
    ((JValue.str "v").truthy = true ∧
      mapGet (generateKey hashX "a" []) (mkResponseCache {}).entries = none ∧
      ((0 : Int) - 0 ≤ jsOrInt none (mkResponseCache {}).ttl)) ∧
    (withCache hashX 0 "a" (fun _ => Except.ok (JValue.str "v")) [] none
        (mkResponseCache {})).1 = Except.ok (JValue.str "v") ∧
    (withCache hashX 0 "a" (fun _ => Except.ok (JValue.str "v")) [] none
        (mkResponseCache {})).2.2 = 1 ∧
    (withCache hashX 0 "a" (fun _ => Except.ok (JValue.str "v")) [] none
        (withCache hashX 0 "a" (fun _ => Except.ok (JValue.str "v")) [] none
          (mkResponseCache {})).2.1).1 = Except.ok (JValue.str "v") ∧
    (withCache hashX 0 "a" (fun _ => Except.ok (JValue.str "v")) [] none
        (withCache hashX 0 "a" (fun _ => Except.ok (JValue.str "v")) [] none
          (mkResponseCache {})).2.1).2.2 = 0 :=
  ⟨⟨by decide, by decide, by decide⟩,
    claim1_withCache_memoizes_truthy hashX 0 0 "a" [] none (mkResponseCache {})
      (JValue.str "v") _ _ (by decide) (by decide) rfl rfl (by decide)⟩

/-! ### Claim C2 -/

/-- Claim C2 (amended): when the store is strictly below capacity,
overwriting an existing key evicts nothing: every other key's entry is
unchanged and the size is unchanged. (At capacity the code runs the LRU
eviction even for an overwrite — the "key is new" condition of the claim is
not checked, see the counterexample.) -/
theorem claim2_overwrite_frame (hash : String → String) (now : Int) (operation : String)
    (params : List (String × JValue)) (data : JValue) (customTtl : Option Int)
    (c : ResponseCache) (k : String)
    (hpresent : (mapGet (generateKey hash operation params) c.entries).isSome = true)
    (hroom : (c.entries.length : Int) < c.maxSize)
    (hk : k ≠ generateKey hash operation params) :
    mapGet k (c.set hash now operation params data customTtl).entries = mapGet k c.entries ∧
    (c.set hash now operation params data customTtl).entries.length = c.entries.length := by
  have hcond : ¬(c.maxSize ≤ (c.entries.length : Int)) := not_le.mpr hroom
  rw [set_entries_shape, if_neg hcond]
  exact ⟨mapGet_mapSet_ne _ _ hk, mapSet_length_present _ hpresent⟩

/-- Claim C2 counterexample: in `cacheFull2` (at capacity 2) the key for
operation `"a"` is already present, so per the claim a `set` on it must
evict nothing; but the code evicts the other entry `"b_h"` because eviction
is keyed on `size ≥ maxSize` alone. -/
theorem claim2_counterexample :
    (mapGet (generateKey hashX "a" []) cacheFull2.entries).isSome = true ∧
    (mapGet "b_h" cacheFull2.entries).isSome = true ∧
    mapGet "b_h" (cacheFull2.set hashX 20 "a" [] (JValue.str "new") none).entries = none := by
  decide

/-- Witness for C2: overwriting `"a_h"` in the one-entry store (below its
capacity 100) leaves the absent key `"b_h"` unchanged and the size at 1. -/
theorem claim2_witness :
    mapGet "b_h" (cacheExpired.set hashX 50 "a" [] (JValue.str "new") none).entries
        = mapGet "b_h" cacheExpired.entries ∧
    (cacheExpired.set hashX 50 "a" [] (JValue.str "new") none).entries.length
        = cacheExpired.entries.length :=
  claim2_overwrite_frame hashX 50 "a" [] (JValue.str "new") none cacheExpired "b_h"
    (by decide) (by decide) (by decide)

/-! ### Claim C3 -/

/-- Claim C3 (amended): construction never validates its parameters — any
`ttl` and `maxSize`, non-positive included, are accepted verbatim (the
defaults apply only to absent options) and construction always succeeds;
operations on the resulting store signal no error: a lookup is an ordinary
miss returning the store unchanged. -/
theorem claim3_no_construction_validation (t m : Int) (ht : t ≤ 0) (hm : m ≤ 0) :
    (mkResponseCache ⟨some t, some m, none, none⟩).ttl = t ∧
    (mkResponseCache ⟨some t, some m, none, none⟩).maxSize = m ∧
    ∀ (hash : String → String) (now : Int) (operation : String)
        (params : List (String × JValue)),
      (mkResponseCache ⟨some t, some m, none, none⟩).get hash now operation params
        = (none, mkResponseCache ⟨some t, some m, none, none⟩) := by
  refine ⟨rfl, rfl, ?_⟩
  intro hash now operation params
  simp [ResponseCache.get, mkResponseCache, mapGet]

/-- Claim C3 counterexample: constructing with `maxSize = 0` and `ttl = 0`
(both non-positive) does not throw — the constructor has no validation; the
resulting store is operational and a `get` is a plain miss. -/
theorem claim3_counterexample :
    (mkResponseCache ⟨some 0, some 0, none, none⟩).maxSize = 0 ∧
    (mkResponseCache ⟨some 0, some 0, none, none⟩).ttl = 0 ∧
    (mkResponseCache ⟨some 0, some 0, none, none⟩).get hashX 7 "a" []
      = (none, mkResponseCache ⟨some 0, some 0, none, none⟩) := by
  decide

/-- Witness for C3: instantiating the amended claim at `ttl = -5`,
`maxSize = -1`. -/
theorem claim3_witness :
    ((-5 : Int) ≤ 0 ∧ (-1 : Int) ≤ 0) ∧
    (mkResponseCache ⟨some (-5), some (-1), none, none⟩).ttl = -5 ∧
    (mkResponseCache ⟨some (-5), some (-1), none, none⟩).maxSize = -1 ∧
    ∀ (hash : String → String) (now : Int) (operation : String)
        (params : List (String × JValue)),
      (mkResponseCache ⟨some (-5), some (-1), none, none⟩).get hash now operation params
        = (none, mkResponseCache ⟨some (-5), some (-1), none, none⟩) :=
  ⟨⟨by decide, by decide⟩, claim3_no_construction_validation (-5) (-1) (by decide) (by decide)⟩

/-! ### Claim C4 -/

/-- Claim C4 (amended): whenever `set` runs on a non-empty store with
`entries.size ≥ maxSize` (all keys nonempty), exactly one entry is evicted
before the new entry is written, and the evicted entry is one with the
minimal `lastAccessed` among ALL current entries — expired entries
included, not merely the live ones. -/
theorem claim4_eviction_lru (hash : String → String) (now : Int) (operation : String)
    (params : List (String × JValue)) (data : JValue) (customTtl : Option Int)
    (c : ResponseCache)
    (htrigger : c.maxSize ≤ (c.entries.length : Int))
    (hne : c.entries ≠ [])
    (hkeys : KeysNonempty c) :
    ∃ k0 e0, (k0, e0) ∈ c.entries ∧
      (∀ p ∈ c.entries, e0.lastAccessed ≤ p.2.lastAccessed) ∧
      (c.set hash now operation params data customTtl).entries
        = mapSet (generateKey hash operation params)
            ⟨data, now, jsOrInt customTtl c.ttl, 1, now⟩ (mapDelete k0 c.entries) ∧
      (mapDelete k0 c.entries).length + 1 = c.entries.length := by
  obtain ⟨k0, e0, hm, hmin, hev⟩ := evict_characterization hne hkeys
  refine ⟨k0, e0, hm, hmin, ?_, ?_⟩
  · rw [set_entries_shape, if_pos htrigger, hev]
  · exact mapDelete_length_present
      (mapGet_isSome_of_mem_keys (List.mem_map.mpr ⟨(k0, e0), hm, rfl⟩))

/-- Claim C4 counterexample: in `cacheMixed` at `now = 100` the entry
`"a_h"` is expired (`100 - 0 > 1`) and `"b_h"` is the only live entry
(`100 - 99 ≤ 100`); the claim says the eviction victim is the
least-recently-used LIVE entry, i.e. `"b_h"`, but the triggering `set`
evicts the expired `"a_h"` (global minimum of `lastAccessed`) and `"b_h"`
survives untouched. -/
theorem claim4_counterexample :
    mapGet "a_h" cacheMixed.entries = some ⟨JValue.str "x", 0, 1, 1, 0⟩ ∧
    ((100 : Int) - 0 > 1) ∧
    mapGet "b_h" cacheMixed.entries = some ⟨JValue.str "y", 99, 100, 1, 50⟩ ∧
    ((100 : Int) - 99 ≤ 100) ∧
    mapGet "a_h" (cacheMixed.set hashX 100 "c" [] (JValue.str "z") none).entries = none ∧
    mapGet "b_h" (cacheMixed.set hashX 100 "c" [] (JValue.str "z") none).entries
      = some ⟨JValue.str "y", 99, 100, 1, 50⟩ := by
  decide

/-- Witness for C4: the LRU scenario `cacheP4` (capacity 3, `"a_h"` read
last, `"b_h"` least recently used) with a fourth insert. -/
theorem claim4_witness :
    ∃ k0 e0, (k0, e0) ∈ cacheP4.entries ∧
      (∀ p ∈ cacheP4.entries, e0.lastAccessed ≤ p.2.lastAccessed) ∧
      (cacheP4.set hashX 4 "d" [] (JValue.str "v4") none).entries
        = mapSet (generateKey hashX "d" [])
            ⟨JValue.str "v4", 4, jsOrInt none cacheP4.ttl, 1, 4⟩
            (mapDelete k0 cacheP4.entries) ∧
      (mapDelete k0 cacheP4.entries).length + 1 = cacheP4.entries.length :=
  claim4_eviction_lru hashX 4 "d" [] (JValue.str "v4") none cacheP4
    (by decide) (by decide) (by unfold KeysNonempty; decide)

/-! ### Claim C5 -/

/-- The size-cap invariant carried through a whole operation sequence. -/
theorem foldl_invariant (hash : String → String) (ops : List CacheOp) :
    ∀ c : ResponseCache, 1 ≤ c.maxSize → KeysNonempty c →
      (c.entries.length : Int) ≤ c.maxSize →
      KeysNonempty (ops.foldl (applyOp hash) c) ∧
      ((ops.foldl (applyOp hash) c).entries.length : Int) ≤ c.maxSize ∧
      (ops.foldl (applyOp hash) c).maxSize = c.maxSize := by
  induction ops with
  | nil =>
    intro c _ h2 h3
    exact ⟨h2, h3, rfl⟩
  | cons o rest ih =>
    intro c h1 h2 h3
    have hstep := applyOp_invariant hash o h1 h2 h3
    have hms := applyOp_maxSize hash c o
    have hrec := ih (applyOp hash c o) (by rw [hms]; exact h1) hstep.1
      (by rw [hms]; exact hstep.2)
    rw [List.foldl_cons]
    refine ⟨hrec.1, ?_, ?_⟩
    · rw [← hms]
      exact hrec.2.1
    · rw [hrec.2.2]
      exact hms

/-- Claim C5: starting from a store constructed with `maxSize ≥ 1`, the
entry count stays at or below `maxSize` after any sequence of
get/set/delete/clear operations — the cap is an invariant of every
operation. -/
theorem claim5_size_cap (hash : String → String) (opts : CacheOptions) (ops : List CacheOp)
    (hmax : 1 ≤ (mkResponseCache opts).maxSize) :
    ((ops.foldl (applyOp hash) (mkResponseCache opts)).entries.length : Int)
      ≤ (mkResponseCache opts).maxSize := by
  have h := foldl_invariant hash ops (mkResponseCache opts) hmax
    (by intro p hp; simp [mkResponseCache] at hp)
    (by simpa [mkResponseCache] using le_trans zero_le_one hmax)
  exact h.2.1

/-- Witness for C5: two inserts into a store capped at one entry leave at
most one entry. -/
theorem claim5_witness :
    ((([CacheOp.doSet 0 "a" [] (JValue.str "x") none,
        CacheOp.doSet 1 "b" [] (JValue.str "y") none]).foldl
          (applyOp hashX) (mkResponseCache ⟨none, some 1, none, none⟩)).entries.length : Int)
      ≤ (mkResponseCache ⟨none, some 1, none, none⟩).maxSize :=
  claim5_size_cap hashX ⟨none, some 1, none, none⟩ _ (by decide)

/-! ### Claim C6 -/

/-- Claim C6 (amended): for every call whose producer is actually invoked
(the lookup yields no truthy cached value: key absent, entry expired, or
cached value falsy) and rejects, `withCache` rejects with that same error,
invokes the producer exactly once, and caches nothing: the resulting store
is exactly the store as the lookup left it, any entry still present under
the key existed before the call with the same data (only the lookup's own
bookkeeping or lazy deletion may differ), and when the store held no entry
for the key it is returned exactly as passed in; consequently a subsequent
call with the same key invokes its producer again instead of
short-circuiting to a cached error. -/
theorem claim6_error_not_cached (hash : String → String) (now now2 : Int)
    (operation : String) (params : List (String × JValue))
    (customTtl customTtl2 : Option Int) (c : ResponseCache) (msg : String)
    (h h2 : Unit → Except String JValue)
    (hnd : (c.entries.map Prod.fst).Nodup)
    (hht : (match (c.get hash now operation params).1 with
            | some v => v.truthy
            | none => false) = false)
    (hh : h () = Except.error msg) :
    withCache hash now operation h params customTtl c
      = (Except.error msg, (c.get hash now operation params).2, 1) ∧
    (∀ e', mapGet (generateKey hash operation params)
        (withCache hash now operation h params customTtl c).2.1.entries = some e' →
      ∃ e, mapGet (generateKey hash operation params) c.entries = some e ∧
        e'.data = e.data) ∧
    (mapGet (generateKey hash operation params) c.entries = none →
      (withCache hash now operation h params customTtl c).2.1 = c) ∧
    (withCache hash now2 operation h2 params customTtl2
        (withCache hash now operation h params customTtl c).2.1).2.2 = 1 := by
  cases hG : mapGet (generateKey hash operation params) c.entries with
  | none =>
    have hget : c.get hash now operation params = (none, c) := by
      simp only [ResponseCache.get, hG]
    have hr1 : withCache hash now operation h params customTtl c
        = (Except.error msg, c, 1) := by
      rw [withCache_miss_run hash now operation h params customTtl c hG, hh]
    have hstore : (withCache hash now operation h params customTtl c).2.1 = c := by
      rw [hr1]
    refine ⟨by rw [hr1, hget], ?_, fun _ => hstore, ?_⟩
    · intro e' he'
      rw [hstore, hG] at he'
      exact Option.noConfusion he'
    · rw [hstore]
      exact withCache_invokes_of_no_truthy_hit hash now2 operation h2 params customTtl2 c
        (by rw [get_fst_none hash now2 operation params c hG])
  | some e =>
    by_cases hexp : now - e.timestamp > e.ttl
    · have hget : c.get hash now operation params = (none, { c with entries := mapDelete (generateKey hash operation params) c.entries }) := by
        simp only [ResponseCache.get, hG, if_pos hexp]
      have hnone : mapGet (generateKey hash operation params)
          (mapDelete (generateKey hash operation params) c.entries) = none :=
        mapGet_mapDelete_self hnd
      have hr1 : withCache hash now operation h params customTtl c = (Except.error msg, { c with entries := mapDelete (generateKey hash operation params) c.entries }, 1) := by
        simp only [withCache, hget, hh]
      have hstore : (withCache hash now operation h params customTtl c).2.1 = { c with entries := mapDelete (generateKey hash operation params) c.entries } := by
        rw [hr1]
      refine ⟨by rw [hr1, hget], ?_, ?_, ?_⟩
      · intro e' he'
        rw [hstore] at he'
        have he2 : mapGet (generateKey hash operation params)
            (mapDelete (generateKey hash operation params) c.entries) = some e' := he'
        rw [hnone] at he2
        exact Option.noConfusion he2
      · intro hcontra
        exact Option.noConfusion hcontra
      · rw [hstore]
        refine withCache_invokes_of_no_truthy_hit hash now2 operation h2 params customTtl2 _ ?_
        have hG2 : mapGet (generateKey hash operation params) ({ c with entries := mapDelete (generateKey hash operation params) c.entries } : ResponseCache).entries = none := hnone
        rw [get_fst_none hash now2 operation params _ hG2]
    · have hget : c.get hash now operation params = (some e.data, { c with entries := mapSet (generateKey hash operation params) (touchEntry now e) c.entries }) := by
        simp only [ResponseCache.get, touchEntry, hG, if_neg hexp]
      have hfalsy : e.data.truthy = false := by
        rw [hget] at hht
        simpa using hht
      have hcond : ¬(e.data.truthy = true) := by
        rw [hfalsy]
        exact Bool.false_ne_true
      have hr1 : withCache hash now operation h params customTtl c = (Except.error msg, { c with entries := mapSet (generateKey hash operation params) (touchEntry now e) c.entries }, 1) := by
        simp only [withCache, hget, if_neg hcond, hh]
      have hstore : (withCache hash now operation h params customTtl c).2.1 = { c with entries := mapSet (generateKey hash operation params) (touchEntry now e) c.entries } := by
        rw [hr1]
      have hG2 : mapGet (generateKey hash operation params) ({ c with entries := mapSet (generateKey hash operation params) (touchEntry now e) c.entries } : ResponseCache).entries = some (touchEntry now e) :=
        mapGet_mapSet_self _ _ _
      refine ⟨by rw [hr1, hget], ?_, ?_, ?_⟩
      · intro e' he'
        rw [hstore] at he'
        have he2 : mapGet (generateKey hash operation params)
            (mapSet (generateKey hash operation params) (touchEntry now e) c.entries)
              = some e' := he'
        rw [mapGet_mapSet_self] at he2
        refine ⟨e, rfl, ?_⟩
        cases he2
        rfl
      · intro hcontra
        exact Option.noConfusion hcontra
      · rw [hstore]
        refine withCache_invokes_of_no_truthy_hit hash now2 operation h2 params customTtl2 _ ?_
        rw [get_fst_found hash now2 operation params _ (touchEntry now e) hG2]
        by_cases hexp2 : now2 - (touchEntry now e).timestamp > (touchEntry now e).ttl
        · rw [if_pos hexp2]
        · rw [if_neg hexp2]
          simpa [touchEntry] using hfalsy

/-- Claim C6 counterexample: the store holds an expired entry for the key;
the producer fails; the failure propagates and is not cached, but the store
is NOT "exactly as it was before the call": the lookup's lazy deletion has
removed the expired entry. -/
theorem claim6_counterexample :
    (withCache hashX 50 "a" (fun _ => Except.error "boom") [] none cacheExpired).1
      = Except.error "boom" ∧
    (mapGet "a_h" cacheExpired.entries).isSome = true ∧
    (withCache hashX 50 "a" (fun _ => Except.error "boom") [] none cacheExpired).2.1.entries
      = [] := by
  decide

/-- Witness for C6: a failing producer against `cacheFalsy`, whose live
falsy entry means the producer is invoked despite the key being present:
the error propagates, the surviving entry keeps its pre-call data, and the
follow-up call invokes its producer again. -/
theorem claim6_witness :
    ((cacheFalsy.entries.map Prod.fst).Nodup ∧
      (match (cacheFalsy.get hashX 5 "a" []).1 with
        | some v => v.truthy
        | none => false) = false) ∧
    withCache hashX 5 "a" (fun _ => Except.error "down") [] none cacheFalsy
      = (Except.error "down", (cacheFalsy.get hashX 5 "a" []).2, 1) ∧
    (∀ e', mapGet (generateKey hashX "a" [])
        (withCache hashX 5 "a" (fun _ => Except.error "down") [] none cacheFalsy).2.1.entries
          = some e' →
      ∃ e, mapGet (generateKey hashX "a" []) cacheFalsy.entries = some e ∧
        e'.data = e.data) ∧
    (mapGet (generateKey hashX "a" []) cacheFalsy.entries = none →
      (withCache hashX 5 "a" (fun _ => Except.error "down") [] none cacheFalsy).2.1
        = cacheFalsy) ∧
    (withCache hashX 6 "a" (fun _ => Except.ok (JValue.str "later")) [] none
        (withCache hashX 5 "a" (fun _ => Except.error "down") [] none cacheFalsy).2.1).2.2
      = 1 :=
  ⟨⟨by decide, by decide⟩,
    claim6_error_not_cached hashX 5 6 "a" [] none none cacheFalsy "down"
      (fun _ => Except.error "down") (fun _ => Except.ok (JValue.str "later"))
      (by decide) (by decide) rfl⟩

/-! ### Claim C7 -/

/-- Claim C7: on an entry found for the key, if `now − storedAt > ttl` the
lookup is a miss, the dead value is not returned and the entry is removed
from the store by the `get` itself (lazy deletion); if `now − storedAt ≤ ttl`
the lookup returns the stored value. -/
theorem claim7_lazy_expiry (hash : String → String) (now : Int) (operation : String)
    (params : List (String × JValue)) (c : ResponseCache) (e : CacheEntry)
    (hfound : mapGet (generateKey hash operation params) c.entries = some e)
    (hnd : (c.entries.map Prod.fst).Nodup) :
    (now - e.timestamp > e.ttl →
      (c.get hash now operation params).1 = none ∧
      (c.get hash now operation params).2.entries
        = mapDelete (generateKey hash operation params) c.entries ∧
      mapGet (generateKey hash operation params)
        (c.get hash now operation params).2.entries = none) ∧
    (now - e.timestamp ≤ e.ttl →
      (c.get hash now operation params).1 = some e.data) := by
  constructor
  · intro hexp
    have hres : c.get hash now operation params = (none, { c with entries := mapDelete (generateKey hash operation params) c.entries }) := by
      simp only [ResponseCache.get, hfound, if_pos hexp]
    refine ⟨by rw [hres], by rw [hres], ?_⟩
    rw [hres]
    exact mapGet_mapDelete_self hnd
  · intro hlive
    simp only [ResponseCache.get, hfound, if_neg (not_lt.mpr hlive)]

/-- Witness for C7: the expired branch on `cacheExpired` at `now = 50`
(stored at 0, ttl 10): miss, and the entry is deleted by the read. -/
theorem claim7_witness :
    ((50 : Int) - 0 > 10) ∧
    (cacheExpired.get hashX 50 "a" []).1 = none ∧
    (cacheExpired.get hashX 50 "a" []).2.entries
      = mapDelete (generateKey hashX "a" []) cacheExpired.entries ∧
    mapGet (generateKey hashX "a" []) (cacheExpired.get hashX 50 "a" []).2.entries = none :=
  ⟨by decide,
    (claim7_lazy_expiry hashX 50 "a" [] cacheExpired ⟨JValue.str "old", 0, 10, 1, 0⟩
      (by decide) (by decide)).1 (by decide)⟩

/-! ### Claim C8 -/

/-- Claim C8 (amended): after any `set` — fresh insert or overwrite — the
entry stored under the derived key has `timestamp = now`, `accessCount = 1`,
`lastAccessed = now`, and `ttl = customTtl || defaultTtl`: the override wins
only when it is given AND nonzero (JavaScript `||`), falling back to the
store default when it is absent or zero. -/
theorem claim8_set_fields (hash : String → String) (now : Int) (operation : String)
    (params : List (String × JValue)) (data : JValue) (customTtl : Option Int)
    (c : ResponseCache) :
    mapGet (generateKey hash operation params)
        (c.set hash now operation params data customTtl).entries
      = some ⟨data, now, jsOrInt customTtl c.ttl, 1, now⟩ := by
  rw [set_entries_shape]
  exact mapGet_mapSet_self _ _ _

/-- Claim C8 counterexample: `set` with the explicit override `0` stores
`ttl = 300000` (the store default), not `0`: the code computes
`customTtl || this.options.ttl`, which discards a zero override, whereas
`ttlOverride ?? defaultTtl` would keep it. -/
theorem claim8_counterexample :
    (mapGet "a_h" ((mkResponseCache {}).set hashX 5 "a" [] (JValue.str "x")
        (some 0)).entries).map CacheEntry.ttl = some 300000 ∧
    (mapGet "a_h" ((mkResponseCache {}).set hashX 5 "a" [] (JValue.str "x")
        (some 0)).entries).map CacheEntry.ttl ≠ some 0 := by
  decide

/-! ### Claim C9 -/

/-- Claim C9: key derivation is a pure function of the operation name and
the set of key/value pairs: params bags that are permutations of one
another (same pairs, different insertion order, keys distinct) produce the
identical key string, for every digest function. -/
theorem claim9_key_order_independent (hash : String → String) (operation : String)
    {l1 l2 : List (String × JValue)} (hperm : l1.Perm l2)
    (hnd : (l1.map Prod.fst).Nodup) :
    generateKey hash operation l1 = generateKey hash operation l2 := by
  unfold generateKey
  rw [serializeParams_perm hperm hnd]

/-- Witness for C9: `key(op, {a:1, b:2}) = key(op, {b:2, a:1})`. -/
theorem claim9_witness :
    ([("a", JValue.num 1), ("b", JValue.num 2)].Perm
        [("b", JValue.num 2), ("a", JValue.num 1)] ∧
      (([("a", JValue.num 1), ("b", JValue.num 2)].map Prod.fst).Nodup)) ∧
    generateKey hashX "op" [("a", JValue.num 1), ("b", JValue.num 2)]
      = generateKey hashX "op" [("b", JValue.num 2), ("a", JValue.num 1)] :=
  ⟨⟨by decide, by decide⟩,
    claim9_key_order_independent hashX "op" (by decide) (by decide)⟩

/-! ### Claim C10 -/

/-- Claim C10: `invalidateCache` returns the store passed in, unchanged —
it deletes no entry and mutates no bookkeeping (its only store access is
the read-only stats snapshot) — and returns the count of keys whose
segment before the first underscore equals the pattern. -/
theorem claim10_invalidate_counts_only (now : Int) (c : ResponseCache) (pattern : String) :
    invalidateCache now c pattern
      = ((c.entries.countP (fun p => decide (jsSplitHead p.1 = pattern)) : Int), c) := by
  simp only [invalidateCache, ResponseCache.getStats]
  rw [invalidateCount_fold]
  simp only [List.countP_map, zero_add, Prod.mk.injEq, and_true]
  congr 1

end CacheSpec
